import Mathlib

/-!
Verification of the ReadBuddy streaming audio pipeline and progress store.

Shallow embedding of `src/utils/audioUtils.ts` (PCM16 encode/decode, base64
transport, the `LiveAudioPlayer` scheduling class, one-shot `playPCMAudio`)
and of `DatabaseService.addSession` (streak/star aggregation).

Times and audio samples are modelled as rationals; JavaScript numbers that
may be NaN are modelled as `Option ℚ` with `none` standing for NaN.
-/

/-! ## LiveAudioPlayer (audioUtils.ts, lines 127-181)

A scheduled source node: its buffer duration, the output-clock time passed
to `source.start`, and whether `stop()` has been called on it. -/

structure SourceNode where
  dur : ℚ
  startAt : ℚ
  stopped : Bool
deriving DecidableEq, Repr

/-- The scheduling-relevant state of a `LiveAudioPlayer`:
`nextStartTime` cursor and the `queue` of active source nodes. -/
structure PlayerState where
  nextStartTime : ℚ
  queue : List SourceNode
deriving DecidableEq, Repr

/-- Constructor state: `nextStartTime = 0`, empty queue (lines 129-134). -/
def initPlayer : PlayerState := ⟨0, []⟩

namespace LiveAudioPlayer

/-- The scheduling tail of `playChunk` (lines 160-169): given the buffer
duration `d` and the output clock's `currentTime` `t`, snap the cursor
forward if it is behind, start the source at the cursor, advance the
cursor by the duration, and push the source on the queue.  Returns the
new state together with the time passed to `source.start`. -/
def playChunk (st : PlayerState) (d t : ℚ) : PlayerState × ℚ :=
  let start := if st.nextStartTime < t then t else st.nextStartTime
  (⟨start + d, st.queue ++ [⟨d, start, false⟩]⟩, start)

/-- `stop()` (lines 176-180): calls `.stop()` on every queued source,
clears the queue and resets the cursor to 0.  Returns the new state and
the (now stopped) sources that were halted. -/
def stop (st : PlayerState) : PlayerState × List SourceNode :=
  (⟨0, []⟩, st.queue.map (fun s => { s with stopped := true }))

/-- Run a whole session: for each `(duration, currentTime)` pair enqueue a
chunk, collecting the scheduled start times in order. -/
def runChunks (st : PlayerState) : List (ℚ × ℚ) → List ℚ
  | [] => []
  | (d, t) :: rest =>
    (playChunk st d t).2 :: runChunks (playChunk st d t).1 rest

/-- "Arrival keeps pace with playback": at each enqueue the cursor is at or
ahead of the output clock's current time. -/
def ahead (c : ℚ) : List (ℚ × ℚ) → Prop
  | [] => True
  | (d, t) :: rest => t ≤ c ∧ ahead (c + d) rest

end LiveAudioPlayer

theorem liveAudioPlayer_runChunks_length (st : PlayerState) (chunks : List (ℚ × ℚ)) :
    (LiveAudioPlayer.runChunks st chunks).length = chunks.length := by
  induction chunks generalizing st with
  | nil => rfl
  | cons hd rest ih =>
    obtain ⟨d, t⟩ := hd
    simp [LiveAudioPlayer.runChunks, ih]

theorem liveAudioPlayer_contiguous_aux (chunks : List (ℚ × ℚ)) :
    ∀ (c : ℚ) (q : List SourceNode), LiveAudioPlayer.ahead c chunks →
      ∀ i, i < chunks.length →
        (LiveAudioPlayer.runChunks ⟨c, q⟩ chunks)[i]? =
          some (c + ((chunks.map Prod.fst).take i).sum) := by
  induction chunks with
  | nil => intro c q _ i hi; simp at hi
  | cons hd rest ih =>
    intro c q hahead i hi
    obtain ⟨d, t⟩ := hd
    obtain ⟨h1, h2⟩ := hahead
    have hnotlt : ¬ (c < t) := not_lt.mpr h1
    cases i with
    | zero =>
      simp [LiveAudioPlayer.runChunks, LiveAudioPlayer.playChunk, hnotlt]
    | succ j =>
      have hj : j < rest.length := by simpa using Nat.lt_of_succ_lt_succ hi
      have := ih (c + d) (q ++ [⟨d, c, false⟩]) h2 j hj
      simp only [LiveAudioPlayer.runChunks, LiveAudioPlayer.playChunk, if_neg hnotlt,
        List.getElem?_cons_succ, List.map_cons, List.take_succ_cons, List.sum_cons]
      rw [this]
      ring_nf

/-- C1: in a session with no intervening `stop()`, if at each enqueue the
cursor is at or ahead of the output clock, then chunk `i` is scheduled to
start exactly at the session's initial cursor offset plus the sum of the
durations of chunks `0..i-1`: playback is contiguous, in enqueue order,
with zero gap and zero overlap. -/
theorem claim_C1_scheduling_contiguous (c0 : ℚ) (q0 : List SourceNode)
    (chunks : List (ℚ × ℚ)) (h : LiveAudioPlayer.ahead c0 chunks)
    (i : Nat) (hi : i < chunks.length) :
    (LiveAudioPlayer.runChunks ⟨c0, q0⟩ chunks)[i]? =
      some (c0 + ((chunks.map Prod.fst).take i).sum) :=
  liveAudioPlayer_contiguous_aux chunks c0 q0 h i hi

/-- Witness for C1: three one-second chunks arriving on time from a fresh
player are scheduled at times 0, 1, 2; here chunk 2 starts at 0 + (1 + 1). -/
theorem claim_C1_witness :
    (LiveAudioPlayer.runChunks ⟨0, []⟩ [(1, 0), (1, 1), (1, 2)])[2]? =
      some (0 + ((([((1 : ℚ), (0 : ℚ)), (1, 1), (1, 2)]).map Prod.fst).take 2).sum) :=
  claim_C1_scheduling_contiguous 0 [] [(1, 0), (1, 1), (1, 2)]
    (by refine ⟨by norm_num, by norm_num, by norm_num, trivial⟩)
    2 (by norm_num)

/-- C2: if the cursor is strictly behind the output clock when a chunk is
scheduled, the chunk starts at the current time (not the stale cursor),
and afterwards the cursor equals current time plus the chunk's duration. -/
theorem claim_C2_late_arrival (st : PlayerState) (d t : ℚ)
    (h : st.nextStartTime < t) :
    (LiveAudioPlayer.playChunk st d t).2 = t ∧
    (LiveAudioPlayer.playChunk st d t).1.nextStartTime = t + d := by
  constructor
  · simp [LiveAudioPlayer.playChunk, if_pos h]
  · simp [LiveAudioPlayer.playChunk, if_pos h]

/-- Witness for C2: a fresh player (cursor 0) receiving a 2-second chunk
when the clock already reads 1 starts it at 1 and sets the cursor to 3. -/
theorem claim_C2_witness :
    (LiveAudioPlayer.playChunk ⟨0, []⟩ 2 1).2 = 1 ∧
    (LiveAudioPlayer.playChunk ⟨0, []⟩ 2 1).1.nextStartTime = 1 + 2 :=
  claim_C2_late_arrival ⟨0, []⟩ 2 1 (by norm_num)

/-- C3: `stop()` halts every handle in the active set, empties the set and
resets the cursor to 0; on an idle player it is a no-op; and an enqueue
right after `stop()` behaves exactly like the first enqueue on a freshly
constructed player. -/
theorem claim_C3_stop_resets (st : PlayerState) :
    (LiveAudioPlayer.stop st).1 = initPlayer ∧
    (∀ s ∈ (LiveAudioPlayer.stop st).2, s.stopped = true) ∧
    (LiveAudioPlayer.stop st).2.length = st.queue.length ∧
    LiveAudioPlayer.stop initPlayer = (initPlayer, []) ∧
    (∀ d t, LiveAudioPlayer.playChunk (LiveAudioPlayer.stop st).1 d t =
      LiveAudioPlayer.playChunk initPlayer d t) := by
  refine ⟨rfl, ?_, by simp [LiveAudioPlayer.stop], rfl, fun d t => rfl⟩
  intro s hs
  simp only [LiveAudioPlayer.stop, List.mem_map] at hs
  obtain ⟨a, -, rfl⟩ := hs
  rfl

/-- Witness for C3: instantiated on a player with one queued source and a
nonzero cursor. -/
theorem claim_C3_witness :
    (LiveAudioPlayer.stop ⟨5, [⟨1, 0, false⟩]⟩).1 = initPlayer ∧
    (∀ s ∈ (LiveAudioPlayer.stop ⟨5, [⟨1, 0, false⟩]⟩).2, s.stopped = true) ∧
    (LiveAudioPlayer.stop ⟨5, [⟨1, 0, false⟩]⟩).2.length =
      (PlayerState.mk 5 [⟨1, 0, false⟩]).queue.length ∧
    LiveAudioPlayer.stop initPlayer = (initPlayer, []) ∧
    (∀ d t, LiveAudioPlayer.playChunk (LiveAudioPlayer.stop ⟨5, [⟨1, 0, false⟩]⟩).1 d t =
      LiveAudioPlayer.playChunk initPlayer d t) :=
  claim_C3_stop_resets ⟨5, [⟨1, 0, false⟩]⟩

/-! ## JavaScript number model for the PCM encoder (audioUtils.ts 100-109)

A sample value is `Option ℚ`: `some q` is an ordinary (finite) number,
`none` is NaN.  `Math.min`/`Math.max` return NaN when either argument is
NaN; `<` on NaN is false; arithmetic propagates NaN; storing into an
`Int16Array` applies ToIntegerOrInfinity (NaN becomes 0, otherwise
truncation toward zero) followed by a wrap into 16 bits. -/

def jsMin (a b : Option ℚ) : Option ℚ :=
  match a, b with
  | some x, some y => some (min x y)
  | _, _ => none

def jsMax (a b : Option ℚ) : Option ℚ :=
  match a, b with
  | some x, some y => some (max x y)
  | _, _ => none

def jsMul (a : Option ℚ) (c : ℚ) : Option ℚ := a.map (· * c)

def jsLt0 (a : Option ℚ) : Bool :=
  match a with
  | some q => decide (q < 0)
  | none => false

/-- Truncation toward zero on ℚ, as in ToIntegerOrInfinity. -/
def ratTrunc (q : ℚ) : Int := q.num.tdiv q.den

/-- `ratTrunc` truncates toward zero: it is the floor for non-negative
arguments and the negated floor of the negation otherwise. -/
theorem ratTrunc_eq_floor (q : ℚ) : ratTrunc q = if q < 0 then -⌊-q⌋ else ⌊q⌋ := by
  unfold ratTrunc
  split
  case isTrue h =>
    have hnum : q.num < 0 := by
      by_contra hc
      exact absurd (Rat.num_nonneg.mp (not_lt.mp hc)) (not_le.mpr h)
    have hden : (0 : Int) ≤ (q.den : Int) := Int.ofNat_nonneg _
    have h1 : q.num.tdiv (q.den : Int) = -((-q.num).tdiv (q.den : Int)) := by
      rw [← Int.neg_tdiv, neg_neg]
    rw [h1, Int.tdiv_eq_ediv (by omega) hden]
    have h2 : ⌊-q⌋ = (-q).num / ((-q).den : Int) := Rat.floor_def
    rw [h2, Rat.neg_num, Rat.neg_den]
  case isFalse h =>
    have hnum : 0 ≤ q.num := Rat.num_nonneg.mpr (not_lt.mp h)
    rw [Int.tdiv_eq_ediv hnum (Int.ofNat_nonneg _), Rat.floor_def]

/-- Wrap an integer into the signed 16-bit range, as an `Int16Array`
element store does. -/
def wrap16 (n : Int) : Int := (n + 32768) % 65536 - 32768

/-- Store a JavaScript number into an `Int16Array` slot: NaN becomes 0,
otherwise truncate toward zero and wrap to 16 bits. -/
def int16Store (a : Option ℚ) : Int :=
  match a with
  | some q => wrap16 (ratTrunc q)
  | none => wrap16 0

/-- `const s = Math.max(-1, Math.min(1, float32Array[i]))` (line 104). -/
def jsClamp (v : Option ℚ) : Option ℚ := jsMax (some (-1)) (jsMin (some 1) v)

/-- `int16Array[i] = s < 0 ? s * 0x8000 : s * 0x7FFF` (line 106). -/
def encodeSampleJS (v : Option ℚ) : Int :=
  int16Store (if jsLt0 (jsClamp v) then jsMul (jsClamp v) 32768
    else jsMul (jsClamp v) 32767)

/-- `float32ToInt16PCM` (lines 100-109): per-sample clamp, scale, store. -/
def float32ToInt16PCM (xs : List (Option ℚ)) : List Int :=
  xs.map encodeSampleJS

/-- The pure mathematical content of one encoder step on a non-NaN sample:
clamp to [-1, 1], then scale negatives by 32768 and non-negatives by
32767, truncating toward zero (no 16-bit wrap). -/
def encSample (x : ℚ) : Int :=
  if max (-1) (min 1 x) < 0 then ratTrunc (max (-1) (min 1 x) * 32768)
  else ratTrunc (max (-1) (min 1 x) * 32767)

theorem ratTrunc_intCast (n : Int) : ratTrunc (n : ℚ) = n := by
  rw [ratTrunc_eq_floor]
  split
  · rw [← Int.cast_neg, Int.floor_intCast]; ring
  · rw [Int.floor_intCast]

theorem ratTrunc_nonneg_bounds (q : ℚ) (c : Int) (h0 : 0 ≤ q) (hc : q ≤ (c : ℚ)) :
    0 ≤ ratTrunc q ∧ ratTrunc q ≤ c := by
  have hnot : ¬ q < 0 := not_lt.mpr h0
  rw [ratTrunc_eq_floor, if_neg hnot]
  constructor
  · exact Int.le_floor.mpr (by exact_mod_cast h0)
  · exact (Int.floor_le_floor hc).trans_eq (Int.floor_intCast c)

theorem ratTrunc_neg_bounds (q : ℚ) (c : Int) (h0 : q < 0) (hc : (c : ℚ) ≤ q) :
    c ≤ ratTrunc q ∧ ratTrunc q ≤ 0 := by
  rw [ratTrunc_eq_floor, if_pos h0]
  constructor
  · have : ⌊-q⌋ ≤ -c := by
      calc ⌊-q⌋ ≤ ⌊((-c : Int) : ℚ)⌋ := Int.floor_le_floor (by push_cast; linarith)
      _ = -c := Int.floor_intCast _
    omega
  · have : (0 : Int) ≤ ⌊-q⌋ := Int.le_floor.mpr (by push_cast; linarith)
    omega

theorem encSample_bounds (x : ℚ) : -32768 ≤ encSample x ∧ encSample x ≤ 32767 := by
  unfold encSample
  set s := max (-1) (min 1 x) with hs
  have hlo : -1 ≤ s := le_max_left _ _
  have hhi : s ≤ 1 := max_le (by norm_num) (min_le_left _ _)
  split
  case isTrue h =>
    have := ratTrunc_neg_bounds (s * 32768) (-32768)
      (by nlinarith) (by push_cast; nlinarith)
    omega
  case isFalse h =>
    have hs0 : 0 ≤ s := not_lt.mp h
    have := ratTrunc_nonneg_bounds (s * 32767) 32767
      (by nlinarith) (by push_cast; nlinarith)
    omega

theorem wrap16_eq_self (n : Int) (h1 : -32768 ≤ n) (h2 : n ≤ 32767) :
    wrap16 n = n := by
  unfold wrap16
  omega

/-- On a non-NaN sample the JS encoder computes exactly `encSample`:
in particular the 16-bit store never wraps. -/
theorem encodeSampleJS_some (x : ℚ) : encodeSampleJS (some x) = encSample x := by
  have hb := encSample_bounds x
  have h1 : jsClamp (some x) = some (max (-1) (min 1 x)) := rfl
  rw [encodeSampleJS, h1]
  by_cases h : max (-1) (min 1 x) < 0
  · have h2 : jsLt0 (some (max (-1) (min 1 x))) = true := by simp [jsLt0, h]
    rw [if_pos h2]
    have h3 : int16Store (jsMul (some (max (-1) (min 1 x))) 32768) =
        wrap16 (ratTrunc (max (-1) (min 1 x) * 32768)) := rfl
    rw [h3]
    unfold encSample at hb ⊢
    rw [if_pos h] at hb ⊢
    exact wrap16_eq_self _ hb.1 hb.2
  · have h2 : jsLt0 (some (max (-1) (min 1 x))) = false := by simp [jsLt0, h]
    rw [h2]
    have h3 : int16Store (jsMul (some (max (-1) (min 1 x))) 32767) =
        wrap16 (ratTrunc (max (-1) (min 1 x) * 32767)) := rfl
    simp only [Bool.false_eq_true, if_false, h3]
    unfold encSample at hb ⊢
    rw [if_neg h] at hb ⊢
    exact wrap16_eq_self _ hb.1 hb.2

/-- A NaN sample is stored as 0 (Math.min/Math.max propagate NaN, the
NaN < 0 test is false, NaN times a constant is NaN, and the Int16Array
store converts NaN to 0). -/
theorem encodeSampleJS_none : encodeSampleJS none = 0 := rfl

theorem float32ToInt16PCM_map_some (xs : List ℚ) :
    float32ToInt16PCM (xs.map some) = xs.map encSample := by
  rw [float32ToInt16PCM, List.map_map]
  exact List.map_congr_left fun x _ => encodeSampleJS_some x

/-- C4: the encoder clamps each sample to [-1, 1] (so the 16-bit store
never wraps or overflows), scales negative samples by 32768 and
non-negative ones by 32767, truncating toward zero; in particular
`[0.5, -0.5, 1, -1]` encodes to `[16383, -16384, 32767, -32768]`. -/
theorem claim_C4_encoder_clamp_scale_truncate :
    (∀ xs : List ℚ, float32ToInt16PCM (xs.map some) = xs.map encSample) ∧
    (∀ x : ℚ, -32768 ≤ encSample x ∧ encSample x ≤ 32767) ∧
    float32ToInt16PCM [some (1/2), some (-1/2), some 1, some (-1)] =
      [16383, -16384, 32767, -32768] := by
  refine ⟨float32ToInt16PCM_map_some, encSample_bounds, ?_⟩
  have h : float32ToInt16PCM [some (1/2), some (-1/2), some 1, some (-1)] =
      [encSample (1/2), encSample (-1/2), encSample 1, encSample (-1)] := by
    show [encodeSampleJS (some (1/2)), encodeSampleJS (some (-1/2)),
      encodeSampleJS (some 1), encodeSampleJS (some (-1))] = _
    rw [encodeSampleJS_some, encodeSampleJS_some, encodeSampleJS_some, encodeSampleJS_some]
  rw [h]
  norm_num [encSample, ratTrunc_eq_floor, min_def, max_def]

/-- Counterexample to C7: the encoder maps a NaN sample to 0, which is
neither of the two int16 bounds. -/
theorem claim_C7_counterexample :
    float32ToInt16PCM [none] = [0] ∧ (0 : Int) ≠ -32768 ∧ (0 : Int) ≠ 32767 :=
  ⟨rfl, by decide, by decide⟩

/-- C7 amended: the encoder never crashes on NaN and never propagates NaN
into the integer output; a NaN sample is stored as 0 (because
`Math.min`/`Math.max` propagate NaN, `NaN < 0` is false, `NaN * 32767` is
NaN, and the `Int16Array` store converts NaN to 0), while all other
samples are encoded as usual. -/
theorem claim_C7_nan_becomes_zero (pre post : List (Option ℚ)) :
    float32ToInt16PCM (pre ++ none :: post) =
      float32ToInt16PCM pre ++ 0 :: float32ToInt16PCM post := by
  simp [float32ToInt16PCM, encodeSampleJS_none]

/-! ## PCM16 decode (audioUtils.ts 72-82 and 145-153)

`new Int16Array(data.buffer)` views consecutive byte pairs as little-endian
signed 16-bit integers; each sample is then divided by 32768.0. -/

def bytesToInt16 : List Nat → List Int
  | lo :: hi :: rest =>
    (if lo + hi * 256 < 32768 then ((lo + hi * 256 : Nat) : Int)
      else ((lo + hi * 256 : Nat) : Int) - 65536) :: bytesToInt16 rest
  | _ => []

/-- `channelData[i] = dataInt16[i] / 32768.0` (lines 81 and 152). -/
def int16ToFloat (i : Int) : ℚ := (i : ℚ) / 32768

theorem bytesToInt16_bounds : ∀ (n : Nat) (b : List Nat), b.length ≤ n →
    (∀ x ∈ b, x < 256) → ∀ i ∈ bytesToInt16 b, -32768 ≤ i ∧ i ≤ 32767 := by
  intro n
  induction n with
  | zero =>
    intro b hb _
    have : b = [] := List.eq_nil_of_length_eq_zero (Nat.le_zero.mp hb)
    subst this
    intro i hi
    simp [bytesToInt16] at hi
  | succ n ih =>
    intro b hb hbytes
    match b with
    | [] => intro i hi; simp [bytesToInt16] at hi
    | [lo] => intro i hi; simp [bytesToInt16] at hi
    | lo :: hi :: rest =>
      intro i hmem
      have hlo : lo < 256 := hbytes lo (by simp)
      have hhi : hi < 256 := hbytes hi (by simp)
      rw [bytesToInt16] at hmem
      rcases List.mem_cons.mp hmem with heq | htail
      · subst heq
        split
        case isTrue h => omega
        case isFalse h =>
          have : lo + hi * 256 < 65536 := by omega
          omega
      · have hlen : rest.length ≤ n := by
          simp only [List.length_cons] at hb
          omega
        exact ih rest hlen (fun x hx => hbytes x (by simp [hx])) i htail

/-- Round trip of a single in-range int16 sample through float decode and
the JS encoder: non-positive samples survive exactly, but every positive
sample comes back one step smaller (it is rescaled by 32767/32768 and
truncated). -/
theorem encSample_int16ToFloat (i : Int) (h1 : -32768 ≤ i) (h2 : i ≤ 32767) :
    encSample (int16ToFloat i) = if 0 < i then i - 1 else i := by
  have h32 : (0 : ℚ) < 32768 := by norm_num
  have h1q : (-32768 : ℚ) ≤ (i : ℚ) := by exact_mod_cast h1
  have h2q : (i : ℚ) ≤ 32767 := by exact_mod_cast h2
  have hs1 : -1 ≤ (i : ℚ) / 32768 := by
    rw [le_div_iff₀ h32]
    linarith
  have hs2 : (i : ℚ) / 32768 ≤ 1 := by
    rw [div_le_iff₀ h32]
    linarith
  have hclamp : max (-1) (min 1 ((i : ℚ) / 32768)) = (i : ℚ) / 32768 := by
    rw [min_eq_right hs2, max_eq_right hs1]
  rw [int16ToFloat, encSample, hclamp]
  rcases lt_trichotomy i 0 with hneg | hzero | hpos
  · have hq : (i : ℚ) / 32768 < 0 :=
      div_neg_of_neg_of_pos (by exact_mod_cast hneg) h32
    rw [if_pos hq, div_mul_cancel₀ _ (by norm_num : (32768 : ℚ) ≠ 0),
      ratTrunc_intCast, if_neg (by omega)]
  · subst hzero
    norm_num [ratTrunc_eq_floor]
  · have hq : ¬ (i : ℚ) / 32768 < 0 := by
      rw [not_lt]
      positivity
    rw [if_neg hq, if_pos hpos, ratTrunc_eq_floor,
      if_neg (by rw [not_lt]; positivity)]
    have hiq : (1 : ℚ) ≤ (i : ℚ) := by exact_mod_cast hpos
    have hiq2 : (i : ℚ) ≤ 32767 := by exact_mod_cast h2
    rw [Int.floor_eq_iff]
    constructor
    · rw [div_mul_eq_mul_div, le_div_iff₀ h32]
      push_cast
      nlinarith
    · rw [div_mul_eq_mul_div, div_lt_iff₀ h32]
      push_cast
      nlinarith

/-- Counterexample to C5: the two-byte sequence `[1, 0]` decodes to the
int16 sample 1, whose float value 1/32768 re-encodes to 0, not 1: the
round trip is not lossless. -/
theorem claim_C5_counterexample :
    bytesToInt16 [1, 0] = [1] ∧
    float32ToInt16PCM ((bytesToInt16 [1, 0]).map (fun i => some (int16ToFloat i))) = [0] ∧
    ([0] : List Int) ≠ [1] := by
  have h1 : bytesToInt16 [1, 0] = [1] := rfl
  refine ⟨h1, ?_, by decide⟩
  rw [h1]
  show [encodeSampleJS (some (int16ToFloat 1))] = _
  rw [encodeSampleJS_some]
  norm_num [encSample, int16ToFloat, ratTrunc_eq_floor, min_def, max_def]

/-- C5 amended: for every byte sequence of even length, decoding to floats
and re-encoding preserves every non-positive int16 sample exactly, and
maps every positive sample `i` to `i - 1` (one quantization step low,
because decode divides by 32768 but encode rescales by 32767 and
truncates).  The round trip is not lossless on positive samples. -/
theorem claim_C5_roundtrip_amended (b : List Nat) (hb : ∀ x ∈ b, x < 256)
    (_he : b.length % 2 = 0) :
    float32ToInt16PCM ((bytesToInt16 b).map (fun i => some (int16ToFloat i))) =
      (bytesToInt16 b).map (fun i => if 0 < i then i - 1 else i) := by
  have hm := bytesToInt16_bounds b.length b le_rfl hb
  rw [float32ToInt16PCM, List.map_map]
  refine List.map_congr_left fun i hi => ?_
  have hbd := hm i hi
  show encodeSampleJS (some (int16ToFloat i)) = _
  rw [encodeSampleJS_some, encSample_int16ToFloat i hbd.1 hbd.2]

/-- Witness for C5 (amended): bytes `[1, 0, 255, 255]` decode to samples
`[1, -1]`; the round trip returns `[0, -1]`. -/
theorem claim_C5_witness :
    float32ToInt16PCM ((bytesToInt16 [1, 0, 255, 255]).map (fun i => some (int16ToFloat i))) =
      (bytesToInt16 [1, 0, 255, 255]).map (fun i => if 0 < i then i - 1 else i) :=
  claim_C5_roundtrip_amended [1, 0, 255, 255] (by decide) (by decide)

/-- Counterexample to C6: the in-range sample 0.9 (not an extreme value)
encodes to 29490, which decodes back to 29490/32768; the absolute error
is 12/327680, strictly more than one quantization step 1/32768. -/
theorem claim_C6_counterexample :
    float32ToInt16PCM [some (9/10)] = [29490] ∧
    |(9/10 : ℚ) - (29490 : ℚ) / 32768| > 1/32768 := by
  constructor
  · show [encodeSampleJS (some (9/10))] = _
    rw [encodeSampleJS_some]
    norm_num [encSample, ratTrunc_eq_floor, min_def, max_def]
  · have h : (9/10 : ℚ) - 29490/32768 = 12/327680 := by norm_num
    rw [h, abs_of_pos (by norm_num)]
    norm_num

/-- C6 amended: for every sample in [-1, 1], encoding then dividing by
32768 reproduces the sample within two quantization steps (< 2/32768);
for non-positive samples the error is within one step (< 1/32768).  For
positive samples the extra error (up to the sample value divided by
32768) comes from encoding with scale 32767 but decoding with 32768, and
it can exceed one step at any sufficiently large positive sample, not
only at the extremes. -/
theorem claim_C6_quantization_amended (q : ℚ) (hlo : -1 ≤ q) (hhi : q ≤ 1) :
    ∀ d ∈ (float32ToInt16PCM [some q]).map (fun i => (i : ℚ) / 32768),
      |q - d| < 2/32768 ∧ (q ≤ 0 → |q - d| < 1/32768) := by
  intro d hd
  have hclamp : max (-1) (min 1 q) = q := by
    rw [min_eq_right hhi, max_eq_right hlo]
  have hd' : d = (encSample q : ℚ) / 32768 := by
    have h0 : float32ToInt16PCM [some q] = [encSample q] := by
      show [encodeSampleJS (some q)] = _
      rw [encodeSampleJS_some]
    rw [h0] at hd
    simpa using hd
  subst hd'
  by_cases hq : q < 0
  · have ht : encSample q = ratTrunc (q * 32768) := by
      rw [encSample, hclamp, if_pos hq]
    have hneg : q * 32768 < 0 := by nlinarith
    rw [ht, ratTrunc_eq_floor, if_pos hneg]
    have hf1 : ((⌊-(q * 32768)⌋ : ℚ)) ≤ -(q * 32768) := Int.floor_le _
    have hf2 : -(q * 32768) < (⌊-(q * 32768)⌋ : ℚ) + 1 := Int.lt_floor_add_one _
    push_cast
    refine ⟨?_, fun _ => ?_⟩ <;>
      · rw [abs_lt]
        constructor <;> linarith
  · have hq0 : 0 ≤ q := not_lt.mp hq
    have ht : encSample q = ratTrunc (q * 32767) := by
      rw [encSample, hclamp, if_neg hq]
    have hpos : ¬ q * 32767 < 0 := by rw [not_lt]; positivity
    rw [ht, ratTrunc_eq_floor, if_neg hpos]
    have hf1 : ((⌊q * 32767⌋ : ℚ)) ≤ q * 32767 := Int.floor_le _
    have hf2 : q * 32767 < (⌊q * 32767⌋ : ℚ) + 1 := Int.lt_floor_add_one _
    refine ⟨?_, fun hq0' => ?_⟩
    · rw [abs_lt]
      constructor <;> linarith
    · have hz : q = 0 := le_antisymm hq0' hq0
      subst hz
      norm_num

/-- Witness for C6 (amended): the sample -1/2 encodes to -16384, decodes
back to exactly -1/2, with zero error. -/
theorem claim_C6_witness :
    |(-1/2 : ℚ) - ((-16384 : Int) : ℚ) / 32768| < 2/32768 ∧
    ((-1/2 : ℚ) ≤ 0 → |(-1/2 : ℚ) - ((-16384 : Int) : ℚ) / 32768| < 1/32768) :=
  claim_C6_quantization_amended (-1/2) (by norm_num) (by norm_num)
    (((-16384 : Int) : ℚ) / 32768)
    (by
      have h0 : float32ToInt16PCM [some (-1/2)] = [-16384] := by
        show [encodeSampleJS (some (-1/2))] = _
        rw [encodeSampleJS_some]
        norm_num [encSample, ratTrunc_eq_floor, min_def, max_def]
      rw [h0]
      simp)

/-! ## Base64 transport (audioUtils.ts 44-52 and 114-122)

`arrayBufferToBase64` builds a binary string from the bytes and calls the
platform `btoa`; `base64ToUint8Array` calls `atob` and reads the char
codes back.  Both are modelled directly on byte lists: `btoa` is standard
base64 encoding of a byte sequence, `atob` its inverse (failing, as the
platform function does, on characters outside the alphabet or on a
malformed length). -/

def b64Alphabet : List Char :=
  ['A', 'B', 'C', 'D', 'E', 'F', 'G', 'H', 'I', 'J', 'K', 'L', 'M',
   'N', 'O', 'P', 'Q', 'R', 'S', 'T', 'U', 'V', 'W', 'X', 'Y', 'Z',
   'a', 'b', 'c', 'd', 'e', 'f', 'g', 'h', 'i', 'j', 'k', 'l', 'm',
   'n', 'o', 'p', 'q', 'r', 's', 't', 'u', 'v', 'w', 'x', 'y', 'z',
   '0', '1', '2', '3', '4', '5', '6', '7', '8', '9', '+', '/']

def sextetChar (n : Nat) : Char := b64Alphabet.getD n 'A'

def charSextet (c : Char) : Option Nat :=
  if b64Alphabet.indexOf c < 64 then some (b64Alphabet.indexOf c) else none

def btoa : List Nat → List Char
  | [] => []
  | [a] => [sextetChar (a / 4), sextetChar (a % 4 * 16), '=', '=']
  | [a, b] => [sextetChar (a / 4), sextetChar (a % 4 * 16 + b / 16),
      sextetChar (b % 16 * 4), '=']
  | a :: b :: c :: rest =>
      sextetChar (a / 4) :: sextetChar (a % 4 * 16 + b / 16) ::
      sextetChar (b % 16 * 4 + c / 64) :: sextetChar (c % 64) :: btoa rest

def atob : List Char → Option (List Nat)
  | [] => some []
  | w :: x :: y :: z :: rest =>
    if z = '=' then
      if rest.isEmpty then
        if y = '=' then
          (charSextet w).bind fun sw =>
            (charSextet x).map fun sx => [sw * 4 + sx / 16]
        else
          (charSextet w).bind fun sw =>
            (charSextet x).bind fun sx =>
              (charSextet y).map fun sy =>
                [sw * 4 + sx / 16, sx % 16 * 16 + sy / 4]
      else none
    else
      (charSextet w).bind fun sw =>
        (charSextet x).bind fun sx =>
          (charSextet y).bind fun sy =>
            (charSextet z).bind fun sz =>
              (atob rest).map fun tail =>
                (sw * 4 + sx / 16) :: (sx % 16 * 16 + sy / 4) ::
                  (sy % 4 * 64 + sz) :: tail
  | _ => none

/-- `arrayBufferToBase64` (lines 114-122): byte list to base64 text. -/
def arrayBufferToBase64 (bytes : List Nat) : List Char := btoa bytes

/-- `base64ToUint8Array` (lines 44-52): base64 text back to bytes. -/
def base64ToUint8Array (s : List Char) : Option (List Nat) := atob s

theorem sextetChar_mem (n : Nat) : sextetChar n ∈ b64Alphabet := by
  unfold sextetChar
  rw [List.getD_eq_getElem?_getD]
  rcases Nat.lt_or_ge n b64Alphabet.length with h | h
  · rw [List.getElem?_eq_getElem h]
    exact List.getElem_mem h
  · rw [List.getElem?_eq_none h]
    decide

theorem sextetChar_ne_pad (n : Nat) : sextetChar n ≠ '=' := by
  intro h
  have hm := sextetChar_mem n
  rw [h] at hm
  exact absurd hm (by decide)

theorem charSextet_sextetChar (n : Nat) (h : n < 64) :
    charSextet (sextetChar n) = some n := by
  have hall : ∀ m : Fin 64, charSextet (sextetChar m.val) = some m.val := by decide
  exact hall ⟨n, h⟩

theorem atob_btoa_aux : ∀ (n : Nat) (b : List Nat), b.length ≤ n →
    (∀ x ∈ b, x < 256) → atob (btoa b) = some b := by
  intro n
  induction n with
  | zero =>
    intro b hb _
    have hnil : b = [] := List.eq_nil_of_length_eq_zero (Nat.le_zero.mp hb)
    subst hnil
    rfl
  | succ n ih =>
    intro b hb hbytes
    match b with
    | [] => rfl
    | [a] =>
      have ha : a < 256 := hbytes a (by simp)
      show atob [sextetChar (a / 4), sextetChar (a % 4 * 16), '=', '='] = some [a]
      rw [atob, if_pos rfl, if_pos rfl, List.isEmpty_nil, if_pos rfl,
        charSextet_sextetChar (a / 4) (by omega),
        charSextet_sextetChar (a % 4 * 16) (by omega)]
      simp only [Option.some_bind, Option.map_some']
      have harith : a / 4 * 4 + a % 4 * 16 / 16 = a := by omega
      rw [harith]
    | [a, b'] =>
      have ha : a < 256 := hbytes a (by simp)
      have hb' : b' < 256 := hbytes b' (by simp)
      show atob [sextetChar (a / 4), sextetChar (a % 4 * 16 + b' / 16),
        sextetChar (b' % 16 * 4), '='] = some [a, b']
      rw [atob, if_pos rfl, List.isEmpty_nil, if_pos rfl,
        if_neg (sextetChar_ne_pad _),
        charSextet_sextetChar (a / 4) (by omega),
        charSextet_sextetChar (a % 4 * 16 + b' / 16) (by omega),
        charSextet_sextetChar (b' % 16 * 4) (by omega)]
      simp only [Option.some_bind, Option.map_some']
      have h1 : a / 4 * 4 + (a % 4 * 16 + b' / 16) / 16 = a := by omega
      have h2 : (a % 4 * 16 + b' / 16) % 16 * 16 + b' % 16 * 4 / 4 = b' := by omega
      rw [h1, h2]
    | a :: b' :: c :: rest =>
      have ha : a < 256 := hbytes a (by simp)
      have hb' : b' < 256 := hbytes b' (by simp)
      have hc : c < 256 := hbytes c (by simp)
      have hlen : rest.length ≤ n := by
        simp only [List.length_cons] at hb
        omega
      have hrest : atob (btoa rest) = some rest :=
        ih rest hlen (fun x hx => hbytes x (by simp [hx]))
      show atob (sextetChar (a / 4) :: sextetChar (a % 4 * 16 + b' / 16) ::
        sextetChar (b' % 16 * 4 + c / 64) :: sextetChar (c % 64) :: btoa rest) =
        some (a :: b' :: c :: rest)
      rw [atob, if_neg (sextetChar_ne_pad _),
        charSextet_sextetChar (a / 4) (by omega),
        charSextet_sextetChar (a % 4 * 16 + b' / 16) (by omega),
        charSextet_sextetChar (b' % 16 * 4 + c / 64) (by omega),
        charSextet_sextetChar (c % 64) (by omega), hrest]
      simp only [Option.some_bind, Option.map_some']
      have h1 : a / 4 * 4 + (a % 4 * 16 + b' / 16) / 16 = a := by omega
      have h2 : (a % 4 * 16 + b' / 16) % 16 * 16 + (b' % 16 * 4 + c / 64) / 4 = b' := by
        omega
      have h3 : (b' % 16 * 4 + c / 64) % 4 * 64 + c % 64 = c := by omega
      rw [h1, h2, h3]

theorem btoa_alphabet_aux : ∀ (n : Nat) (b : List Nat), b.length ≤ n →
    ∀ ch ∈ btoa b, ch ∈ b64Alphabet ∨ ch = '=' := by
  intro n
  induction n with
  | zero =>
    intro b hb
    have hnil : b = [] := List.eq_nil_of_length_eq_zero (Nat.le_zero.mp hb)
    subst hnil
    intro ch hch
    simp [btoa] at hch
  | succ n ih =>
    intro b hb ch hch
    match b with
    | [] => simp [btoa] at hch
    | [a] =>
      rw [btoa] at hch
      simp only [List.mem_cons, List.not_mem_nil, or_false] at hch
      rcases hch with rfl | rfl | rfl | rfl
      · exact Or.inl (sextetChar_mem _)
      · exact Or.inl (sextetChar_mem _)
      · exact Or.inr rfl
      · exact Or.inr rfl
    | [a, b'] =>
      rw [btoa] at hch
      simp only [List.mem_cons, List.not_mem_nil, or_false] at hch
      rcases hch with rfl | rfl | rfl | rfl
      · exact Or.inl (sextetChar_mem _)
      · exact Or.inl (sextetChar_mem _)
      · exact Or.inl (sextetChar_mem _)
      · exact Or.inr rfl
    | a :: b' :: c :: rest =>
      have hlen : rest.length ≤ n := by
        simp only [List.length_cons] at hb
        omega
      rw [btoa] at hch
      simp only [List.mem_cons] at hch
      rcases hch with rfl | rfl | rfl | rfl | h
      · exact Or.inl (sextetChar_mem _)
      · exact Or.inl (sextetChar_mem _)
      · exact Or.inl (sextetChar_mem _)
      · exact Or.inl (sextetChar_mem _)
      · exact ih rest hlen ch h

/-- C9: the transport text encoding is a reversible bijection on raw
bytes: decoding the encoded text recovers exactly the original byte
sequence, and the encoded output uses only the base64 alphabet (plus the
padding character). -/
theorem claim_C9_base64_roundtrip (b : List Nat) (hb : ∀ x ∈ b, x < 256) :
    base64ToUint8Array (arrayBufferToBase64 b) = some b ∧
    ∀ ch ∈ arrayBufferToBase64 b, ch ∈ b64Alphabet ∨ ch = '=' :=
  ⟨atob_btoa_aux b.length b le_rfl hb,
   btoa_alphabet_aux b.length b le_rfl⟩

/-- Witness for C9: the bytes of "Man" encode to "TWFu" and decode back. -/
theorem claim_C9_witness :
    base64ToUint8Array (arrayBufferToBase64 [77, 97, 110]) = some [77, 97, 110] ∧
    ∀ ch ∈ arrayBufferToBase64 [77, 97, 110], ch ∈ b64Alphabet ∨ ch = '=' :=
  claim_C9_base64_roundtrip [77, 97, 110] (by decide)

/-! ## One-shot playback `playPCMAudio` (audioUtils.ts 54-93)

The whole body runs inside `try { ... } catch (e) { console.error(...) }`.
The failure-capable data path is: `atob` (throws on malformed base64,
line 45 via line 65) and the `Int16Array` view over the decoded bytes
(throws a RangeError when the byte length is odd, line 72).  The model
returns `Except.error` where the body would throw. -/

def playPCMAudioDecode (s : List Char) : Except String (List ℚ) :=
  match atob s with
  | none => Except.error "InvalidCharacterError"
  | some bytes =>
    if bytes.length % 2 = 0 then Except.ok ((bytesToInt16 bytes).map int16ToFloat)
    else Except.error "RangeError"

/-- `playPCMAudio` (lines 54-93): the body's outcome is swallowed by the
surrounding try/catch (lines 55, 90-92), so the caller always observes a
normally-completing no-op. -/
def playPCMAudio (s : List Char) : Except String Unit :=
  match playPCMAudioDecode s with
  | Except.ok _ => Except.ok ()
  | Except.error _ => Except.ok ()

/-- C8: one-shot playback never throws to its caller: on every input,
malformed base64 and odd byte counts included, it completes normally.
Both failure modes really occur in the body: a one-character input makes
the base64 decode fail, and "QQ==" decodes to a single byte, which makes
the Int16Array construction fail. -/
theorem claim_C8_never_throws :
    (∀ s : List Char, playPCMAudio s = Except.ok ()) ∧
    playPCMAudioDecode ['A'] = Except.error "InvalidCharacterError" ∧
    playPCMAudioDecode ['Q', 'Q', '=', '='] = Except.error "RangeError" := by
  refine ⟨fun s => ?_, rfl, rfl⟩
  rw [playPCMAudio]
  cases playPCMAudioDecode s with
  | ok a => rfl
  | error e => rfl

/-! ## DatabaseService.addSession (src/unnamed/part_001, lines 71-110)

The user-stats update performed inside `addSession`: stars are summed
into `totalStars`, the daily streak is kept, incremented, or reset by
comparing `lastReadDate` against today's and yesterday's date strings,
and `lastReadDate` is set to today. -/

structure User where
  totalStars : Int
  streak : Int
  lastReadDate : String
deriving DecidableEq, Repr

namespace DatabaseService

/-- The stats update of `addSession` (lines 84-103) for an existing user:
`today` models `new Date().toDateString()` and `yesterday` models
`new Date(Date.now() - 86400000).toDateString()`. -/
def addSession (u : User) (stars : Int) (today yesterday : String) : User :=
  { totalStars := u.totalStars + stars
    streak :=
      if u.lastReadDate = today then u.streak
      else if u.lastReadDate = yesterday then u.streak + 1
      else 1
    lastReadDate := today }

end DatabaseService

/-- C10: `addSession` on an existing user adds exactly the session's stars
to `totalStars`, leaves the streak unchanged when the user already read
today, increments it when the user last read yesterday, resets it to 1 in
every other case, and stamps `lastReadDate` with today. -/
theorem claim_C10_addSession (u : User) (stars : Int) (today yesterday : String)
    (hdays : today ≠ yesterday) :
    (DatabaseService.addSession u stars today yesterday).totalStars =
      u.totalStars + stars ∧
    (DatabaseService.addSession u stars today yesterday).lastReadDate = today ∧
    (u.lastReadDate = today →
      (DatabaseService.addSession u stars today yesterday).streak = u.streak) ∧
    (u.lastReadDate = yesterday →
      (DatabaseService.addSession u stars today yesterday).streak = u.streak + 1) ∧
    (u.lastReadDate ≠ today → u.lastReadDate ≠ yesterday →
      (DatabaseService.addSession u stars today yesterday).streak = 1) := by
  refine ⟨rfl, rfl, fun ht => ?_, fun hy => ?_, fun ht hy => ?_⟩
  · simp [DatabaseService.addSession, ht]
  · have ht : u.lastReadDate ≠ today := fun h => hdays (h.symm.trans hy)
    simp [DatabaseService.addSession, ht, hy, Ne.symm hdays]
  · simp [DatabaseService.addSession, ht, hy]

/-- Witness for C10: a user with 3 stars and a 2-day streak who last read
yesterday ("Fri") gains 4 stars, moves to a 3-day streak, and is stamped
with today ("Sat"). -/
theorem claim_C10_witness :
    (DatabaseService.addSession ⟨3, 2, "Fri"⟩ 4 "Sat" "Fri").totalStars = 3 + 4 ∧
    (DatabaseService.addSession ⟨3, 2, "Fri"⟩ 4 "Sat" "Fri").lastReadDate = "Sat" ∧
    ((User.mk 3 2 "Fri").lastReadDate = "Sat" →
      (DatabaseService.addSession ⟨3, 2, "Fri"⟩ 4 "Sat" "Fri").streak =
        (User.mk 3 2 "Fri").streak) ∧
    ((User.mk 3 2 "Fri").lastReadDate = "Fri" →
      (DatabaseService.addSession ⟨3, 2, "Fri"⟩ 4 "Sat" "Fri").streak =
        (User.mk 3 2 "Fri").streak + 1) ∧
    ((User.mk 3 2 "Fri").lastReadDate ≠ "Sat" →
      (User.mk 3 2 "Fri").lastReadDate ≠ "Fri" →
      (DatabaseService.addSession ⟨3, 2, "Fri"⟩ 4 "Sat" "Fri").streak = 1) :=
  claim_C10_addSession ⟨3, 2, "Fri"⟩ 4 "Sat" "Fri" (by decide)
